import Mathlib

/-!
Verification of the transaction/address resolution core of
bkc-iquidus-explorer (`lib/explorer.js`).

Modelling conventions (shallow embedding):
* JavaScript numbers are modelled as exact rationals (`ℚ`).  `parseFloat`
  on a number returns the number itself; on a string it is a prefix
  parser for sign / integer digits / fractional digits (exponent forms
  and `Infinity` are not exercised by the code paths under scrutiny).
  `NaN` is modelled by `Option.none`.  This idealizes IEEE-754 binary64
  arithmetic: the model agrees with the program on the moderate values
  exercised by the resolver and supply claims, but properties that hinge
  on double rounding (ulp-level drift of `parseFloat`, `toFixed` and
  `parseInt` on 17-significant-digit inputs, exponent-form rendering at
  very large magnitudes) are outside this embedding and are not claimed
  by it.
* `Number.prototype.toFixed(8)` is modelled by exact decimal rounding of
  the rational magnitude to 8 fractional digits (the ECMAScript spec's
  "closest n, ties pick the larger" applied to the magnitude), rendered
  with a hand-rolled decimal digit printer so that round-trip facts are
  provable.
* Callback-passing style is flattened: a function `f(x, cb)` that always
  calls `cb(r)` exactly once becomes a pure function returning `r`.
* `syncLoop` is modelled as a state machine over an explicit per-iteration
  action: the per-iteration callback either calls `loop.next()` once,
  calls `loop.break(end)` (optionally followed by `loop.next()`), or
  throws.  The `setTimeout` deferral taken on indices divisible by 100
  runs the callback on a fresh scheduler tick, outside the driver's
  `try`/`catch`; a throw there is therefore recorded as `uncaught`.
-/

/-! ### Decimal digits and JS string primitives -/

/-- Numeric value of a decimal digit character (JS-style `c.charCodeAt(0) - 48`). -/
def digitVal (c : Char) : Nat := c.toNat - 48

/-- Value of a list of decimal digit characters, most significant first. -/
def digitsToNat (cs : List Char) : Nat := cs.foldl (fun a c => 10 * a + digitVal c) 0

/-- The decimal digit character for a value below 10. -/
def digitChar (d : Nat) : Char :=
  match d with
  | 0 => '0' | 1 => '1' | 2 => '2' | 3 => '3' | 4 => '4'
  | 5 => '5' | 6 => '6' | 7 => '7' | 8 => '8' | _ => '9'

/-- Decimal rendering of a natural number, digit accumulator form with fuel
(structural, so the kernel can evaluate it; any fuel `≥ n` is sufficient). -/
def natDigitsGo : Nat → Nat → List Char → List Char
  | 0, n, acc => digitChar n :: acc
  | fuel + 1, n, acc =>
    if n < 10 then digitChar n :: acc
    else natDigitsGo fuel (n / 10) (digitChar (n % 10) :: acc)

/-- Decimal rendering of a natural number, as JS `String(n)` produces for integers. -/
def natDigits (n : Nat) : List Char := natDigitsGo n n []

/-- Left-pad a digit string with zeros to width `k`. -/
def padZeros (k : Nat) (l : List Char) : List Char :=
  List.replicate (k - l.length) '0' ++ l

/-- Split an optional leading sign, as `parseFloat` / `parseInt` do. -/
def splitSign (cs : List Char) : Bool × List Char :=
  match cs with
  | [] => (false, [])
  | c :: r => if c = '-' then (true, r) else if c = '+' then (false, r) else (false, c :: r)

/-- `s.replace('.', '')` on a character list: removes the first dot only. -/
def removeFirstDotAux : List Char → List Char
  | [] => []
  | c :: rest => if c = '.' then rest else c :: removeFirstDotAux rest

/-- JS `s.replace('.', '')`. -/
def removeFirstDot (s : String) : String := String.mk (removeFirstDotAux s.toList)

/-- JS `parseInt(s, 10)`: skip spaces, optional sign, leading decimal digits;
`none` models `NaN` (no digits).  Idealized: returns the exact integer of
the digit string, whereas the real `parseInt` returns a double and so rounds
digit strings above `2 ^ 53`. -/
def jsParseIntDec (s : String) : Option Int :=
  let cs := s.toList.dropWhile (fun c => c = ' ')
  let p := splitSign cs
  let ds := p.2.takeWhile Char.isDigit
  if ds.isEmpty then none
  else some ((if p.1 then -1 else 1) * (digitsToNat ds : Int))

/-- The components of a parsed decimal literal: sign, integer-part value,
fraction-part value and fraction length. -/
structure DecParts where
  neg : Bool
  ip : Nat
  fp : Nat
  fl : Nat
deriving DecidableEq, Repr

/-- The rational value denoted by a parsed decimal literal. -/
def DecParts.toRat (d : DecParts) : ℚ :=
  (if d.neg then -1 else 1) * ((d.ip : ℚ) + (d.fp : ℚ) / 10 ^ d.fl)

/-- Prefix-parse a decimal literal the way JS `parseFloat` does on plain
decimal strings: optional spaces, optional sign, digits, optional dot and
more digits; `none` models `NaN` (no digits at all). -/
def parseDecParts (s : String) : Option DecParts :=
  let cs := s.toList.dropWhile (fun c => c = ' ')
  let p := splitSign cs
  let ipd := p.2.takeWhile Char.isDigit
  let rest := p.2.dropWhile Char.isDigit
  let fpd := match rest with
    | '.' :: r => r.takeWhile Char.isDigit
    | _ => []
  if ipd.isEmpty && fpd.isEmpty then none
  else some ⟨p.1, digitsToNat ipd, digitsToNat fpd, fpd.length⟩

/-- A JS value reaching `parseFloat`: a string, a (finite) number, or `undefined`. -/
inductive JsValue where
  | str (s : String) : JsValue
  | num (q : ℚ) : JsValue
  | undef : JsValue
deriving DecidableEq, Repr

/-- JS `parseFloat`; `none` models `NaN`.  Idealized: returns the exact
rational value of the literal, whereas the real `parseFloat` rounds to the
nearest binary64 double (and also accepts exponent forms). -/
def jsParseFloat : JsValue → Option ℚ
  | .str s => (parseDecParts s).map DecParts.toRat
  | .num q => some q
  | .undef => none

/-- Absolute value on `ℚ`, written out so the kernel can evaluate it
(`ratAbs_eq` identifies it with `|q|`); negativity is tested on the
numerator, which is equivalent to `q < 0`. -/
def ratAbs (q : ℚ) : ℚ := if q.num < 0 then -q else q

/-- Round-half-up on `ℚ`, written out so the kernel can evaluate it
(`ratRound_eq` identifies it with Mathlib's `round`). -/
def ratRound (q : ℚ) : ℤ := (2 * q.num + (q.den : ℤ)) / (2 * (q.den : ℤ))

/-- JS `num.toFixed(8)`: the magnitude is rounded to the nearest multiple of
`10 ^ (-8)` (ties toward the larger value, per ECMAScript `ToFixed`), and the
string carries a leading minus exactly when the number is negative.
Idealized: rounds the exact rational and always renders a fixed-point
string, whereas the real `toFixed` operates on a rounded double and renders
magnitudes of `1e21` and above in exponent form. -/
def jsToFixed8 (q : ℚ) : String :=
  let a : Nat := (ratRound (ratAbs q * 100000000)).toNat
  String.mk ((if q.num < 0 then ['-'] else []) ++ natDigits (a / 100000000)
    ++ ['.'] ++ padZeros 8 (natDigits (a % 100000000)))

/-- `convert_to_satoshi` (lib/explorer.js:52-64): `parseFloat`, `NaN ↦ 0`,
`toFixed(8)`, drop the decimal point, `parseInt(_, 10)`.  The `try`/`catch`
never fires past `parseFloat` (the remaining steps are total), mirrored here
by the function being total. -/
def convert_to_satoshi (amount : JsValue) : Int :=
  match jsParseFloat amount with
  | none => 0
  | some num => (jsParseIntDec (removeFirstDot (jsToFixed8 num))).getD 0

/-! ### syncLoop (lib/explorer.js:249-295) -/

/-- What a per-iteration callback does with the loop object on one invocation:
call `loop.next()` once; call `loop.break(endFlag)` and then `loop.next()` or
not (`callsNext`); or throw. -/
inductive LoopSignal where
  | nextSig : LoopSignal
  | breakSig (endFlag : Bool) (callsNext : Bool) : LoopSignal
  | throwSig : LoopSignal
deriving DecidableEq, Repr

/-- Observable outcome of a `syncLoop` run: the indices at which the
per-iteration callback was invoked (in invocation order), how many times the
completion callback ran, and whether a callback exception escaped to the
scheduler uncaught. -/
structure LoopTrace where
  calls : List Nat
  exits : Nat
  uncaught : Bool
deriving DecidableEq, Repr

/-- The recursive `next` driver of `syncLoop`, with fuel `iterations - index`.
On indices divisible by 100 the callback is invoked through `setTimeout`, so a
throw there is not caught by the driver's `try`/`catch`: the run dies with an
uncaught exception and the completion callback never fires.  Elsewhere a throw
is caught, setting `done` and invoking the completion callback. -/
def runFrom {σ : Type} (step : Nat → σ → σ × LoopSignal) : Nat → Nat → σ → σ × LoopTrace
  | 0, _, s => (s, ⟨[], 1, false⟩)
  | r + 1, idx, s =>
    match step idx s with
    | (s1, LoopSignal.nextSig) =>
      let t := runFrom step r (idx + 1) s1
      (t.1, ⟨idx :: t.2.calls, t.2.exits, t.2.uncaught⟩)
    | (s1, LoopSignal.breakSig endFlag callsNext) =>
      (s1, ⟨[idx], if endFlag && callsNext then 1 else 0, false⟩)
    | (s1, LoopSignal.throwSig) =>
      if idx % 100 = 0 then (s1, ⟨[idx], 0, true⟩) else (s1, ⟨[idx], 1, false⟩)

/-- `syncLoop(iterations, process, exit)`: non-positive iteration counts invoke
the completion callback immediately with zero iterations; otherwise the `next`
driver starts at index 0. -/
def syncLoop {σ : Type} (iterations : Int) (step : Nat → σ → σ × LoopSignal) (s : σ) :
    σ × LoopTrace :=
  if iterations ≤ 0 then (s, ⟨[], 1, false⟩)
  else runFrom step iterations.toNat 0 s

/-! ### Output/input resolution (lib/explorer.js:297-440) -/

/-- `scriptPubKey` of a raw output; every field may be absent. -/
structure ScriptPubKey where
  typ : Option String
  addresses : Option (List String)
  address : Option String
deriving DecidableEq, Repr

/-- A raw transaction output as returned by the data source. -/
structure RawOutput where
  value : Option ℚ
  n : Option Int
  scriptPubKey : Option ScriptPubKey
deriving DecidableEq, Repr

/-- A raw transaction input; `coinbase` models the truthiness of the
`coinbase` field. -/
structure RawInput where
  txid : Option String
  vout : Option Int
  coinbase : Bool
deriving DecidableEq, Repr

/-- A raw transaction (`vin` + `vout`), as consumed by `prepare_vin`. -/
structure RawTx where
  vin : List RawInput
  vout : List RawOutput
deriving DecidableEq, Repr

/-- An entry of a resolved set: `{addresses: <string>, amount: <satoshi>}`
(the `addresses` field holds a single string, per the source's shape). -/
structure ResolvedEntry where
  addresses : String
  amount : Int
deriving DecidableEq, Repr

/-- Intermediate result of `get_input_addresses`: `{hash, amount}` where
`amount` is a raw coin value (absent when the referenced output has none). -/
structure InputAddr where
  hash : String
  amount : Option ℚ
deriving DecidableEq, Repr

/-- Default `RawOutput` used for in-bounds list indexing. -/
def dfltOut : RawOutput := ⟨none, none, none⟩

/-- Default `RawInput` used for in-bounds list indexing. -/
def dfltIn : RawInput := ⟨none, none, false⟩

/-- JS `x || 0` on an optional number followed by `parseFloat`. -/
def jsOrQ (v : Option ℚ) : ℚ := v.getD 0

/-- Address extraction shared by `prepare_vout` (lines 315-321) and
`get_input_addresses` (lines 390-397): prefer a non-empty
`scriptPubKey.addresses` array (take element 0), else a truthy
`scriptPubKey.address` (the empty string is falsy). -/
def resolveAddress (spk : ScriptPubKey) : Option String :=
  match spk.addresses with
  | some (a :: _) => some a
  | _ =>
    match spk.address with
    | some a => if a = "" then none else some a
    | none => none

/-- Index of the first entry carrying `object` as address, if any
(the scan inside `is_unique`, lines 352-363). -/
def findAddrIdx : List ResolvedEntry → String → Option Nat
  | [], _ => none
  | e :: rest, a =>
    if e.addresses = a then some 0 else (findAddrIdx rest a).map (· + 1)

/-- `is_unique(array, object, cb)`: `cb(false, i)` on the first entry whose
`addresses` equals `object`, else `cb(true, null)`. -/
def is_unique (array : List ResolvedEntry) (object : String) : Bool × Option Nat :=
  match findAddrIdx array object with
  | some i => (false, some i)
  | none => (true, none)

/-- `arr[index].amount += amount_sat` (guarded by `arr[index]` being present). -/
def updateAt : List ResolvedEntry → Nat → Int → List ResolvedEntry
  | [], _, _ => []
  | e :: rest, 0, amt => { e with amount := e.amount + amt } :: rest
  | e :: rest, i + 1, amt => e :: updateAt rest i amt

/-- Body of the `prepare_vout` iteration (lines 305-337): skip outputs with no
`scriptPubKey` or of type `nonstandard`/`nulldata`, skip outputs with no
usable address, otherwise convert the value and append or accumulate. -/
def prepare_vout_step (arr_vout : List ResolvedEntry) (output : RawOutput) :
    List ResolvedEntry :=
  match output.scriptPubKey with
  | none => arr_vout
  | some spk =>
    if spk.typ = some "nonstandard" ∨ spk.typ = some "nulldata" then arr_vout
    else
      match resolveAddress spk with
      | none => arr_vout
      | some address =>
        let amount_sat := convert_to_satoshi (JsValue.num (jsOrQ output.value))
        match is_unique arr_vout address with
        | (true, _) => arr_vout ++ [⟨address, amount_sat⟩]
        | (false, some index) => updateAt arr_vout index amount_sat
        | (false, none) => arr_vout

/-- The resolved output set produced by the `prepare_vout` loop, before the
proof-of-stake adjustment. -/
def resolvedOutputs (vout : List RawOutput) : List ResolvedEntry :=
  (syncLoop (vout.length : Int)
    (fun i arr => (prepare_vout_step arr (vout.getD i dfltOut), LoopSignal.nextSig)) []).1

/-- Whether the raw first output is of type `nonstandard`
(part of the proof-of-stake condition, line 340). -/
def headIsNonstandard (vout : List RawOutput) : Bool :=
  match vout.head? with
  | some o0 =>
    match o0.scriptPubKey with
    | some spk => spk.typ == some "nonstandard"
    | none => false
  | none => false

/-- The proof-of-stake condition of lines 340-344: raw `vout[0]` is
`nonstandard`, both resolved sets are non-empty, and the first resolved input
address equals the first resolved output address. -/
def posCond (vout : List RawOutput) (arr_vin arr_vout : List ResolvedEntry) : Bool :=
  headIsNonstandard vout &&
    (match arr_vin.head?, arr_vout.head? with
     | some i0, some u0 => i0.addresses == u0.addresses
     | _, _ => false)

/-- `prepare_vout(vout, txid, vin, cb)` (lines 297-350).  `arr_vin` starts as
`vin.slice()`, i.e. a copy with the same contents; when the proof-of-stake
condition holds, the first input amount is subtracted from the first output
amount and the first entry is shifted off the copy.  Returns
`(arr_vout, arr_vin)`. -/
def prepare_vout (vout : List RawOutput) (vin : List ResolvedEntry) :
    List ResolvedEntry × List ResolvedEntry :=
  if posCond vout vin (resolvedOutputs vout) then
    match vin, resolvedOutputs vout with
    | i0 :: vis, o0 :: vos => ({ o0 with amount := o0.amount - i0.amount } :: vos, vis)
    | _, _ => (resolvedOutputs vout, vin)
  else (resolvedOutputs vout, vin)

/-- The entry an output contributes under the source's skip rule: nothing for
a missing `scriptPubKey`, a `nonstandard`/`nulldata` type, or no usable
address; otherwise the resolved address paired with the converted value. -/
def emitOutput (o : RawOutput) : Option ResolvedEntry :=
  match o.scriptPubKey with
  | none => none
  | some spk =>
    if spk.typ = some "nonstandard" ∨ spk.typ = some "nulldata" then none
    else (resolveAddress spk).map
      (fun a => ⟨a, convert_to_satoshi (JsValue.num (jsOrQ o.value))⟩)

/-- `get_input_addresses(input, vout, cb)` (lines 365-410).  A coinbase input
synthesizes `[{hash: 'coinbase', amount: Σ vout values}]` without consulting
the data source; otherwise the referenced transaction is fetched (`none`
models both a fetch failure, whose error-string result carries no `vout`
array, and a missing transaction), the output with matching `n` located, and
its address and raw value returned. -/
def get_input_addresses (fetch : String → Option RawTx) (input : Option RawInput)
    (vout : List RawOutput) : List InputAddr :=
  match input with
  | none => []
  | some inp =>
    if inp.coinbase then
      [⟨"coinbase", some ((syncLoop (vout.length : Int)
        (fun i a => (a + jsOrQ (vout.getD i dfltOut).value, LoopSignal.nextSig)) 0).1)⟩]
    else
      match inp.txid.bind fetch with
      | none => []
      | some tx =>
        match tx.vout.find? (fun o => o.n == inp.vout) with
        | none => []
        | some output =>
          match output.scriptPubKey with
          | none => []
          | some spk =>
            match resolveAddress spk with
            | none => []
            | some a => [⟨a, output.value⟩]

/-- Body of the `prepare_vin` iteration (lines 418-436): resolve the input to
its source address, skip when empty, else convert and append or accumulate. -/
def prepare_vin_step (fetch : String → Option RawTx) (vout : List RawOutput)
    (arr_vin : List ResolvedEntry) (inp : RawInput) : List ResolvedEntry :=
  match get_input_addresses fetch (some inp) vout with
  | [] => arr_vin
  | addr :: _ =>
    let amount_sat := convert_to_satoshi (JsValue.num (jsOrQ addr.amount))
    match is_unique arr_vin addr.hash with
    | (true, _) => arr_vin ++ [⟨addr.hash, amount_sat⟩]
    | (false, some index) => updateAt arr_vin index amount_sat
    | (false, none) => arr_vin

/-- `prepare_vin(tx, cb)` (lines 412-440). -/
def prepare_vin (fetch : String → Option RawTx) (tx : RawTx) : List ResolvedEntry :=
  (syncLoop (tx.vin.length : Int)
    (fun i arr => (prepare_vin_step fetch tx.vout arr (tx.vin.getD i dfltIn),
      LoopSignal.nextSig)) []).1

/-! ### Supply strategies (lib/explorer.js:442-537) and helpers -/

/-- Result of one external query: a transport-level failure, or a delivered
value (possibly non-numeric, possibly `undefined` for a missing field). -/
inductive FetchResult where
  | fail : FetchResult
  | value (v : JsValue) : FetchResult
deriving DecidableEq, Repr

/-- The external data source and balance store as `get_supply` consumes them:
per-strategy query results, the coinbase address document
(`none` = DB error, `some none` = no document, `some (some sent)` = its
`sent` field), and the positive-balance documents (`none` = DB error). -/
structure DataSource where
  getsupply : FetchResult
  getinfo_moneysupply : FetchResult
  txoutset_total_amount : FetchResult
  coinbaseDoc : Option (Option ℚ)
  balanceDocs : Option (List ℚ)
deriving Repr

/-- The settings `get_supply` reads: `settings.supply` (absent or a strategy
string) and `settings.use_rpc`. -/
structure SupplySettings where
  supply : Option String
  use_rpc : Bool
deriving DecidableEq, Repr

/-- `SATOSHI_FACTOR` (line 8). -/
def SATOSHI_FACTOR : ℚ := 100000000

/-- The `handleSupply` closure (lines 449-452): `parseFloat`, `NaN ↦ 0`. -/
def handleSupply (v : JsValue) : ℚ :=
  match jsParseFloat v with
  | none => 0
  | some q => q

/-- `coinbase_supply` (lines 19-27): DB error or no document yield 0, else
the document's `sent` field. -/
def coinbase_supply (ds : DataSource) : ℚ :=
  match ds.coinbaseDoc with
  | none => 0
  | some none => 0
  | some (some sent) => sent

/-- `balance_supply` (lines 521-537): DB error yields 0, else the sum of the
returned balances (`doc.balance || 0`; the query already filters positives). -/
def balance_supply (ds : DataSource) : ℚ :=
  match ds.balanceDocs with
  | none => 0
  | some docs => docs.foldl (fun t b => t + b) 0

/-- `get_supply` (lines 442-519).  A falsy `settings.supply` (absent or empty)
takes the coinbase route.  On the RPC side a transport failure delivers the
error string `'RPC command failed'` (for `GETINFO`/`TXOUTSET` its missing
field then reads as `undefined`); on the HTTP side a transport failure
delivers `0` directly.  Every branch funnels through `handleSupply`. -/
def get_supply (st : SupplySettings) (ds : DataSource) : ℚ :=
  match st.supply with
  | none => coinbase_supply ds / SATOSHI_FACTOR
  | some strat =>
    if strat = "" then coinbase_supply ds / SATOSHI_FACTOR
    else if st.use_rpc then
      if strat = "HEAVY" then
        handleSupply (match ds.getsupply with
          | .fail => .str "RPC command failed"
          | .value v => v)
      else if strat = "GETINFO" then
        handleSupply (match ds.getinfo_moneysupply with
          | .fail => .undef
          | .value v => v)
      else if strat = "TXOUTSET" then
        handleSupply (match ds.txoutset_total_amount with
          | .fail => .undef
          | .value v => v)
      else if strat = "BALANCES" then
        handleSupply (.num (balance_supply ds / SATOSHI_FACTOR))
      else handleSupply (.num (coinbase_supply ds / SATOSHI_FACTOR))
    else
      if strat = "HEAVY" then
        handleSupply (match ds.getsupply with
          | .fail => .num 0
          | .value v => v)
      else if strat = "GETINFO" then
        handleSupply (match ds.getinfo_moneysupply with
          | .fail => .num 0
          | .value v => v)
      else if strat = "TXOUTSET" then
        handleSupply (match ds.txoutset_total_amount with
          | .fail => .num 0
          | .value v => v)
      else if strat = "BALANCES" then
        handleSupply (.num (balance_supply ds / SATOSHI_FACTOR))
      else handleSupply (.num (coinbase_supply ds / SATOSHI_FACTOR))

/-- A selected strategy's source failed or answered non-numerically. -/
def sourceBad : FetchResult → Prop
  | .fail => True
  | .value v => jsParseFloat v = none

/-! ### Array-aliasing model for the `vin.slice()` copy (line 303) -/

/-- Read the array object stored at reference `r`. -/
def heapRead (h : List (List ResolvedEntry)) (r : Nat) : List ResolvedEntry :=
  h.getD r []

/-- `arr.slice()`: allocate a fresh array object with the same contents;
returns the fresh reference and the grown heap. -/
def jsSliceAlloc (h : List (List ResolvedEntry)) (r : Nat) :
    Nat × List (List ResolvedEntry) :=
  (h.length, h ++ [heapRead h r])

/-- `arr.shift()` at reference `r`: drop the first element in place. -/
def jsShift (h : List (List ResolvedEntry)) (r : Nat) : List (List ResolvedEntry) :=
  h.set r (heapRead h r).tail

/-- `prepare_vout` with the caller's `vin` array held in a heap, mirroring the
aliasing structure of lines 297-350: `arr_vin = vin.slice()` allocates a copy,
and the proof-of-stake `shift()` mutates only that copy.  Returns
`((arr_vout, arr_vin reference), final heap)`. -/
def prepare_vout_heap (vout : List RawOutput) (vinRef : Nat)
    (h : List (List ResolvedEntry)) :
    (List ResolvedEntry × Nat) × List (List ResolvedEntry) :=
  let ref := (jsSliceAlloc h vinRef).1
  let h1 := (jsSliceAlloc h vinRef).2
  if posCond vout (heapRead h1 ref) (resolvedOutputs vout) then
    match heapRead h1 ref, resolvedOutputs vout with
    | i0 :: _, o0 :: vos =>
      (({ o0 with amount := o0.amount - i0.amount } :: vos, ref), jsShift h1 ref)
    | _, _ => ((resolvedOutputs vout, ref), h1)
  else ((resolvedOutputs vout, ref), h1)

/-! ### Concrete fixtures used by several claims -/

/-- A `nonstandard` first output as found in proof-of-stake transactions. -/
def nsOut : RawOutput := ⟨some 0, some 0, some ⟨some "nonstandard", none, none⟩⟩

/-- An ordinary output paying 3 coins to address `A`. -/
def outA3 : RawOutput := ⟨some 3, some 1, some ⟨some "pubkeyhash", some ["A"], none⟩⟩

/-- The raw output list of a proof-of-stake transaction staking to `A`. -/
def posVout : List RawOutput := [nsOut, outA3, outA3]

/-- A mixed output list: a `nulldata` output, a normal output to `A`, an
output with no usable address, and an output using the singular
`scriptPubKey.address` form for `B`. -/
def mixedVout : List RawOutput :=
  [⟨some 7, some 0, some ⟨some "nulldata", some ["X"], none⟩⟩,
   ⟨some 1, some 1, some ⟨some "pubkeyhash", some ["A"], none⟩⟩,
   ⟨some 9, some 2, some ⟨some "pubkeyhash", none, none⟩⟩,
   ⟨some 2, some 3, some ⟨none, none, some "B"⟩⟩]

/-- Two ordinary outputs of 2.5 coins each, summing to 5.0 coins. -/
def outs5 : List RawOutput :=
  [⟨some (5/2), some 0, some ⟨some "pubkeyhash", some ["B"], none⟩⟩,
   ⟨some (5/2), some 1, some ⟨some "pubkeyhash", some ["C"], none⟩⟩]

/-! ### Lemmas: decimal digits -/

lemma digitVal_digitChar {d : Nat} (h : d < 10) : digitVal (digitChar d) = d := by
  interval_cases d <;> rfl

lemma digitChar_isDigit (d : Nat) : (digitChar d).isDigit = true := by
  rcases d with _ | _ | _ | _ | _ | _ | _ | _ | _ | d <;> rfl

lemma foldl_digits (ys : List Char) :
    ∀ a : Nat, ys.foldl (fun a c => 10 * a + digitVal c) a
      = a * 10 ^ ys.length + ys.foldl (fun a c => 10 * a + digitVal c) 0 := by
  induction ys with
  | nil => intro a; simp
  | cons c ys ih =>
    intro a
    have h1 := ih (10 * a + digitVal c)
    have h2 := ih (10 * 0 + digitVal c)
    rw [List.foldl_cons, List.foldl_cons, h1, h2, List.length_cons]
    ring

lemma digitsToNat_cons (c : Char) (l : List Char) :
    digitsToNat (c :: l) = digitVal c * 10 ^ l.length + digitsToNat l := by
  simp only [digitsToNat, List.foldl_cons]
  rw [foldl_digits l (10 * 0 + digitVal c)]
  ring

lemma digitsToNat_append (xs ys : List Char) :
    digitsToNat (xs ++ ys) = digitsToNat xs * 10 ^ ys.length + digitsToNat ys := by
  simp only [digitsToNat, List.foldl_append]
  exact foldl_digits ys _

lemma digitsToNat_replicate_zero (m : Nat) : digitsToNat (List.replicate m '0') = 0 := by
  induction m with
  | zero => rfl
  | succ m ih =>
    rw [List.replicate_succ, digitsToNat_cons, ih]
    simp [digitVal]

lemma natDigitsGo_val : ∀ (fuel n : Nat) (acc : List Char), n ≤ fuel →
    digitsToNat (natDigitsGo fuel n acc) = n * 10 ^ acc.length + digitsToNat acc := by
  intro fuel
  induction fuel with
  | zero =>
    intro n acc hn
    have hz : n = 0 := Nat.le_zero.mp hn
    subst hz
    rw [natDigitsGo, digitsToNat_cons, digitVal_digitChar (by omega)]
  | succ fuel ih =>
    intro n acc hn
    rw [natDigitsGo]
    by_cases h10 : n < 10
    · rw [if_pos h10, digitsToNat_cons, digitVal_digitChar h10]
    · rw [if_neg h10]
      have hdivlt : n / 10 < n := Nat.div_lt_self (by omega) (by omega)
      have hrec := ih (n / 10) (digitChar (n % 10) :: acc) (by omega)
      rw [hrec, digitsToNat_cons, digitVal_digitChar (Nat.mod_lt _ (by omega))]
      have hpow : n * 10 ^ acc.length
          = (10 * (n / 10) + n % 10) * 10 ^ acc.length := by
        rw [Nat.div_add_mod]
      rw [List.length_cons, hpow, pow_succ]
      ring

lemma natDigits_val (n : Nat) : digitsToNat (natDigits n) = n := by
  have h := natDigitsGo_val n n [] (le_refl n)
  simpa [natDigits, digitsToNat] using h

lemma natDigitsGo_mem : ∀ (fuel n : Nat) (acc : List Char),
    (∀ c ∈ acc, c.isDigit = true) → ∀ c ∈ natDigitsGo fuel n acc, c.isDigit = true := by
  intro fuel
  induction fuel with
  | zero =>
    intro n acc hacc c hc
    rw [natDigitsGo] at hc
    rcases List.mem_cons.mp hc with h | h
    · subst h; exact digitChar_isDigit n
    · exact hacc c h
  | succ fuel ih =>
    intro n acc hacc c hc
    rw [natDigitsGo] at hc
    by_cases h10 : n < 10
    · rw [if_pos h10] at hc
      rcases List.mem_cons.mp hc with h | h
      · subst h; exact digitChar_isDigit n
      · exact hacc c h
    · rw [if_neg h10] at hc
      refine ih (n / 10) (digitChar (n % 10) :: acc) ?_ c hc
      intro x hx
      rcases List.mem_cons.mp hx with h | h
      · subst h; exact digitChar_isDigit (n % 10)
      · exact hacc x h

lemma natDigits_mem (n : Nat) : ∀ c ∈ natDigits n, c.isDigit = true :=
  natDigitsGo_mem n n [] (by intro c hc; cases hc)

lemma natDigitsGo_ne_nil : ∀ (fuel n : Nat) (acc : List Char),
    natDigitsGo fuel n acc ≠ [] := by
  intro fuel
  induction fuel with
  | zero => intro n acc; rw [natDigitsGo]; exact List.cons_ne_nil _ _
  | succ fuel ih =>
    intro n acc
    rw [natDigitsGo]
    by_cases h10 : n < 10
    · rw [if_pos h10]; exact List.cons_ne_nil _ _
    · rw [if_neg h10]; exact ih _ _

lemma natDigitsGo_length : ∀ (fuel n : Nat) (acc : List Char) (k : Nat), n ≤ fuel →
    n < 10 ^ k → 1 ≤ k → (natDigitsGo fuel n acc).length ≤ k + acc.length := by
  intro fuel
  induction fuel with
  | zero =>
    intro n acc k _ _ hk
    rw [natDigitsGo]
    simp only [List.length_cons]
    omega
  | succ fuel ih =>
    intro n acc k hn hnk hk
    rw [natDigitsGo]
    by_cases h10 : n < 10
    · rw [if_pos h10]
      simp only [List.length_cons]
      omega
    · rw [if_neg h10]
      have hk2 : 2 ≤ k := by
        by_contra hlt
        have hk1 : k = 1 := by omega
        subst hk1
        simp only [pow_one] at hnk
        omega
      have hdivlt : n / 10 < n := Nat.div_lt_self (by omega) (by omega)
      have hdiv : n / 10 < 10 ^ (k - 1) := by
        have hp : 10 ^ (k - 1) * 10 = 10 ^ k := by
          rw [← pow_succ]
          congr 1
          omega
        exact Nat.div_lt_of_lt_mul (by omega)
      have hrec := ih (n / 10) (digitChar (n % 10) :: acc) (k - 1) (by omega) hdiv (by omega)
      simp only [List.length_cons] at hrec
      omega

lemma natDigits_length_le {n k : Nat} (h : n < 10 ^ k) (hk : 1 ≤ k) :
    (natDigits n).length ≤ k := by
  have hg := natDigitsGo_length n n [] k (le_refl n) h hk
  simpa [natDigits] using hg

/-! ### Lemmas: padding, characters, string plumbing -/

lemma padZeros_length {k : Nat} {l : List Char} (h : l.length ≤ k) :
    (padZeros k l).length = k := by
  simp only [padZeros, List.length_append, List.length_replicate]
  omega

lemma digitsToNat_padZeros (k : Nat) (l : List Char) :
    digitsToNat (padZeros k l) = digitsToNat l := by
  simp only [padZeros, digitsToNat_append, digitsToNat_replicate_zero]
  simp

lemma padZeros_mem {k : Nat} {l : List Char}
    (h : ∀ c ∈ l, c.isDigit = true) : ∀ c ∈ padZeros k l, c.isDigit = true := by
  intro c hc
  rcases List.mem_append.mp hc with hr | hl
  · have : c = '0' := (List.eq_of_mem_replicate hr)
    subst this
    rfl
  · exact h c hl

lemma isDigit_facts {c : Char} (h : c.isDigit = true) :
    c ≠ '.' ∧ c ≠ '-' ∧ c ≠ '+' ∧ c ≠ ' ' := by
  refine ⟨?_, ?_, ?_, ?_⟩ <;> intro he <;> subst he <;> exact absurd h (by decide)

lemma takeWhile_all {p : Char → Bool} : ∀ {l : List Char},
    (∀ c ∈ l, p c = true) → l.takeWhile p = l := by
  intro l
  induction l with
  | nil => intro _; rfl
  | cons c l ih =>
    intro h
    rw [List.takeWhile_cons, h c (List.mem_cons_self c l),
      ih (fun x hx => h x (List.mem_cons_of_mem c hx))]
    simp

lemma dropWhile_cons_false {p : Char → Bool} {c : Char} (l : List Char)
    (h : p c = false) : (c :: l).dropWhile p = c :: l := by
  rw [List.dropWhile_cons, h]
  simp only [Bool.false_eq_true, if_false]

lemma removeFirstDotAux_no_dot : ∀ (xs ys : List Char),
    (∀ c ∈ xs, c ≠ '.') → removeFirstDotAux (xs ++ '.' :: ys) = xs ++ ys := by
  intro xs
  induction xs with
  | nil =>
    intro ys _
    simp [removeFirstDotAux]
  | cons c xs ih =>
    intro ys h
    rw [List.cons_append, removeFirstDotAux,
      if_neg (h c (List.mem_cons_self c xs)), ih ys (fun x hx => h x (List.mem_cons_of_mem c hx)),
      List.cons_append]

/-! ### Lemmas: the toFixed/parseInt pipeline -/

lemma jsParseIntDec_digits (l : List Char) (hne : l ≠ [])
    (hd : ∀ c ∈ l, c.isDigit = true) :
    jsParseIntDec (String.mk l) = some ((digitsToNat l : Int)) := by
  obtain ⟨w, l', rfl⟩ : ∃ w l', l = w :: l' := by
    cases l with
    | nil => exact absurd rfl hne
    | cons w l' => exact ⟨w, l', rfl⟩
  have hw := hd w (List.mem_cons_self w l')
  obtain ⟨_, hwm, hwp, hws⟩ := isDigit_facts hw
  simp only [jsParseIntDec]
  have htl : (String.mk (w :: l')).toList = w :: l' := rfl
  rw [htl, dropWhile_cons_false _ (by simp [hws]), splitSign,
    if_neg hwm, if_neg hwp]
  rw [takeWhile_all hd]
  simp

lemma jsParseIntDec_neg_digits (l : List Char) (hne : l ≠ [])
    (hd : ∀ c ∈ l, c.isDigit = true) :
    jsParseIntDec (String.mk ('-' :: l)) = some (-(digitsToNat l : Int)) := by
  simp only [jsParseIntDec]
  have htl : (String.mk ('-' :: l)).toList = '-' :: l := rfl
  rw [htl, dropWhile_cons_false _ (by decide), splitSign, if_pos rfl]
  rw [takeWhile_all hd]
  have hie : l.isEmpty = false := by
    cases l with
    | nil => exact absurd rfl hne
    | cons c l' => rfl
  rw [hie]
  simp

lemma pipeline_eq (q : ℚ) :
    (jsParseIntDec (removeFirstDot (jsToFixed8 q))).getD 0
      = (if q.num < 0 then (-1 : Int) else 1)
          * ((ratRound (ratAbs q * 100000000)).toNat : Int) := by
  set a : Nat := (ratRound (ratAbs q * 100000000)).toNat with ha
  set W : List Char := natDigits (a / 100000000) with hWdef
  set F : List Char := padZeros 8 (natDigits (a % 100000000)) with hFdef
  have hWd : ∀ c ∈ W, c.isDigit = true := natDigits_mem _
  have hFd : ∀ c ∈ F, c.isDigit = true := padZeros_mem (natDigits_mem _)
  have hWne : W ≠ [] := natDigitsGo_ne_nil _ _ _
  have hFlen : F.length = 8 := by
    refine padZeros_length (natDigits_length_le ?_ (by norm_num))
    have : a % 100000000 < 100000000 := Nat.mod_lt _ (by norm_num)
    calc a % 100000000 < 100000000 := this
    _ ≤ 10 ^ 8 := by norm_num
  have hWval : digitsToNat W = a / 100000000 := natDigits_val _
  have hFval : digitsToNat F = a % 100000000 := by
    rw [hFdef, digitsToNat_padZeros, natDigits_val]
  have hWF : digitsToNat (W ++ F) = a := by
    rw [digitsToNat_append, hFlen, hWval, hFval]
    have hp : (10 : Nat) ^ 8 = 100000000 := by norm_num
    rw [hp]
    omega
  have hWFd : ∀ c ∈ W ++ F, c.isDigit = true := by
    intro c hc
    rcases List.mem_append.mp hc with h | h
    · exact hWd c h
    · exact hFd c h
  have hWFne : W ++ F ≠ [] := by
    intro h
    exact hWne (List.append_eq_nil.mp h).1
  have hWnd : ∀ c ∈ W, c ≠ '.' := fun c hc => (isDigit_facts (hWd c hc)).1
  have hj : jsToFixed8 q
      = String.mk ((if q.num < 0 then ['-'] else []) ++ (W ++ ('.' :: F))) := by
    simp only [jsToFixed8, List.append_assoc, List.singleton_append]
  by_cases hn : q.num < 0
  · rw [if_pos hn] at hj
    have hr : removeFirstDot (jsToFixed8 q) = String.mk ('-' :: (W ++ F)) := by
      rw [hj]
      show String.mk (removeFirstDotAux (('-' :: (W ++ ('.' :: F))))) = _
      rw [removeFirstDotAux, if_neg (by decide), removeFirstDotAux_no_dot W F hWnd]
    rw [hr, jsParseIntDec_neg_digits _ hWFne hWFd, hWF, if_pos hn]
    simp
  · rw [if_neg hn] at hj
    have hr : removeFirstDot (jsToFixed8 q) = String.mk (W ++ F) := by
      rw [hj]
      show String.mk (removeFirstDotAux ([] ++ (W ++ ('.' :: F)))) = _
      rw [List.nil_append, removeFirstDotAux_no_dot W F hWnd]
    rw [hr, jsParseIntDec_digits _ hWFne hWFd, hWF, if_neg hn]
    simp

/-! ### Lemmas: rounding arithmetic -/

lemma ratAbs_eq (q : ℚ) : ratAbs q = |q| := by
  unfold ratAbs
  by_cases h : q.num < 0
  · rw [if_pos h, abs_of_neg (Rat.num_neg.mp h)]
  · rw [if_neg h]
    have hq : 0 ≤ q := by
      by_contra hc
      exact h (Rat.num_neg.mpr (not_le.mp hc))
    rw [abs_of_nonneg hq]

lemma ratRound_eq (q : ℚ) : ratRound q = round q := by
  rw [round_eq]
  have hden : ((q.den : ℚ)) ≠ 0 := by
    have := q.den_pos
    positivity
  have h2den : ((2 * q.den : ℕ) : ℚ) ≠ 0 :=
    Nat.cast_ne_zero.mpr (by have := q.den_pos; omega)
  have hq : (q.num : ℚ) = q * (q.den : ℚ) := by
    have h := Rat.num_div_den q
    rw [div_eq_iff hden] at h
    exact h
  have hrepr : q + 1 / 2 = ((2 * q.num + (q.den : ℤ) : ℤ) : ℚ) / ((2 * q.den : ℕ) : ℚ) := by
    rw [eq_div_iff h2den]
    push_cast
    linear_combination (-2 : ℚ) * hq
  rw [hrepr, Rat.floor_intCast_div_natCast]
  unfold ratRound
  push_cast
  rfl

lemma convert_num_eq (q : ℚ) :
    convert_to_satoshi (JsValue.num q)
      = (if q.num < 0 then (-1 : Int) else 1) * ((round (|q| * 100000000)).toNat : Int) := by
  have h : convert_to_satoshi (JsValue.num q)
      = (jsParseIntDec (removeFirstDot (jsToFixed8 q))).getD 0 := rfl
  rw [h, pipeline_eq, ratRound_eq, ratAbs_eq]

lemma convert_toRat_exact (d : DecParts) (hfl : d.fl ≤ 8) :
    ((convert_to_satoshi (JsValue.num d.toRat) : Int) : ℚ) = d.toRat * 100000000 := by
  set v : ℚ := (d.ip : ℚ) + (d.fp : ℚ) / 10 ^ d.fl with hv
  have h10 : ((10 : ℚ)) ^ d.fl ≠ 0 := by positivity
  have hvnn : 0 ≤ v := by
    rw [hv]
    positivity
  set N : Nat := d.ip * 10 ^ 8 + d.fp * 10 ^ (8 - d.fl) with hN
  have hpow : (10 : ℚ) ^ (8 - d.fl) * 10 ^ d.fl = 10 ^ 8 := by
    rw [← pow_add]
    congr 1
    omega
  have hscale : v * 100000000 = (N : ℚ) := by
    have h1e8 : (100000000 : ℚ) = 10 ^ 8 := by norm_num
    calc v * 100000000 = ((d.ip : ℚ) + (d.fp : ℚ) / 10 ^ d.fl) * 10 ^ 8 := by
          rw [hv, h1e8]
    _ = (d.ip : ℚ) * 10 ^ 8 + (d.fp : ℚ) * (10 ^ (8 - d.fl) * 10 ^ d.fl) / 10 ^ d.fl := by
          rw [hpow]
          ring
    _ = (d.ip : ℚ) * 10 ^ 8 + (d.fp : ℚ) * 10 ^ (8 - d.fl) := by
          rw [mul_div_assoc, mul_div_cancel_right₀ _ h10]
    _ = (N : ℚ) := by
          rw [hN]
          push_cast
          ring
  have habs : |d.toRat| = v := by
    unfold DecParts.toRat
    rw [← hv]
    by_cases hneg : d.neg
    · rw [if_pos hneg, neg_one_mul, abs_neg, abs_of_nonneg hvnn]
    · rw [if_neg hneg, one_mul, abs_of_nonneg hvnn]
  have hround : ((round (|d.toRat| * 100000000)).toNat : Int) = (N : Int) := by
    rw [habs, hscale, round_natCast, Int.toNat_natCast]
  rw [convert_num_eq, hround]
  by_cases hneg : d.neg
  · have htr : d.toRat = -v := by
      unfold DecParts.toRat
      rw [← hv, if_pos hneg, neg_one_mul]
    by_cases hz : v = 0
    · have hN0 : (N : ℚ) = 0 := by rw [← hscale, hz, zero_mul]
      have htr0 : d.toRat = 0 := by rw [htr, hz, neg_zero]
      rw [if_neg (by simp [htr0])]
      push_cast
      rw [htr0, hN0]
      ring
    · have hvpos : 0 < v := lt_of_le_of_ne hvnn (Ne.symm hz)
      have htneg : d.toRat < 0 := by
        rw [htr]
        exact neg_neg_of_pos hvpos
      rw [if_pos (Rat.num_neg.mpr htneg)]
      push_cast
      rw [htr, ← hscale]
      ring
  · have htr : d.toRat = v := by
      unfold DecParts.toRat
      rw [← hv, if_neg hneg, one_mul]
    have htnn : 0 ≤ d.toRat := by rw [htr]; exact hvnn
    have hnum : ¬d.toRat.num < 0 := fun hc =>
      absurd (Rat.num_neg.mp hc) (not_lt.mpr htnn)
    rw [if_neg hnum]
    push_cast
    rw [htr, ← hscale]
    ring

lemma convert_str_eq_num (s : String) (d : DecParts) (hp : parseDecParts s = some d) :
    convert_to_satoshi (JsValue.str s) = convert_to_satoshi (JsValue.num d.toRat) := by
  simp [convert_to_satoshi, jsParseFloat, hp]

lemma convert_str_none (s : String) (hp : parseDecParts s = none) :
    convert_to_satoshi (JsValue.str s) = 0 := by
  simp [convert_to_satoshi, jsParseFloat, hp]

/-! ### Lemmas: syncLoop -/

lemma runFrom_nextAll {σ : Type} (f : Nat → σ → σ) : ∀ (r idx : Nat) (s : σ),
    runFrom (fun i st => (f i st, LoopSignal.nextSig)) r idx s
      = ((List.range' idx r).foldl (fun s i => f i s) s,
          ⟨List.range' idx r, 1, false⟩) := by
  intro r
  induction r with
  | zero =>
    intro idx s
    simp [runFrom, List.range']
  | succ r ih =>
    intro idx s
    simp only [runFrom]
    rw [ih (idx + 1) (f idx s), List.range'_succ, List.foldl_cons]

lemma syncLoop_nextAll {σ : Type} (f : Nat → σ → σ) (n : Int) (s : σ) (h : 1 ≤ n) :
    syncLoop n (fun i st => (f i st, LoopSignal.nextSig)) s
      = ((List.range n.toNat).foldl (fun s i => f i s) s,
          ⟨List.range n.toNat, 1, false⟩) := by
  rw [syncLoop, if_neg (by omega), runFrom_nextAll, List.range_eq_range']

lemma foldl_range'_getD {α σ : Type} (g : σ → α → σ) (d : α) :
    ∀ (l pre : List α) (s : σ),
      (List.range' pre.length l.length).foldl (fun s i => g s ((pre ++ l).getD i d)) s
        = l.foldl g s := by
  intro l
  induction l with
  | nil => intro pre s; simp [List.range']
  | cons a l ih =>
    intro pre s
    rw [List.length_cons, List.range'_succ, List.foldl_cons]
    have hget : (pre ++ a :: l).getD pre.length d = a := by
      rw [List.getD_eq_getElem?_getD, List.getElem?_append_right (le_refl _)]
      simp
    rw [hget]
    have hpre : pre ++ a :: l = (pre ++ [a]) ++ l := by simp
    have hlen : pre.length + 1 = (pre ++ [a]).length := by simp
    rw [hpre, hlen, ih (pre ++ [a]) (g s a)]
    rfl

lemma syncLoop_getD_foldl {α σ : Type} (g : σ → α → σ) (d : α) (l : List α) (s : σ) :
    (syncLoop (l.length : Int)
      (fun i st => (g st (l.getD i d), LoopSignal.nextSig)) s).1 = l.foldl g s := by
  by_cases h : l = []
  · subst h
    rw [syncLoop, if_pos (by simp)]
    rfl
  · have hlen : 1 ≤ (l.length : Int) := by
      have : l.length ≠ 0 := fun hc => h (List.length_eq_zero.mp hc)
      omega
    rw [syncLoop_nextAll _ _ _ hlen]
    have ht : (l.length : Int).toNat = l.length := by omega
    have h0 : (0 : Nat) = ([] : List α).length := rfl
    rw [ht, List.range_eq_range']
    show (List.range' ([] : List α).length l.length).foldl
      (fun s i => g s (l.getD i d)) s = l.foldl g s
    have := foldl_range'_getD g d l [] s
    simpa using this

lemma runFrom_breakAt {σ : Type} (f : Nat → σ → σ) (k : Nat) (nb : Bool) :
    ∀ (r idx : Nat) (s : σ), idx ≤ k → k < idx + r →
      (runFrom (fun i st => (f i st,
          if i = k then LoopSignal.breakSig false nb else LoopSignal.nextSig)) r idx s).2
        = ⟨List.range' idx (k - idx + 1), 0, false⟩ := by
  intro r
  induction r with
  | zero => intro idx s h1 h2; omega
  | succ r ih =>
    intro idx s h1 h2
    by_cases hik : idx = k
    · subst hik
      simp only [runFrom, if_pos rfl]
      have : idx - idx + 1 = 1 := by omega
      rw [this]
      rfl
    · have hlt : idx < k := lt_of_le_of_ne h1 hik
      simp only [runFrom, if_neg hik]
      rw [ih (idx + 1) (f idx s) (by omega) (by omega)]
      have hk : k - idx + 1 = (k - (idx + 1) + 1) + 1 := by omega
      rw [hk, List.range'_succ]
      rfl

lemma runFrom_throwAt {σ : Type} (f : Nat → σ → σ) (t : Nat) :
    ∀ (r idx : Nat) (s : σ), idx ≤ t → t < idx + r → t % 100 ≠ 0 →
      (runFrom (fun i st => (f i st,
          if i = t then LoopSignal.throwSig else LoopSignal.nextSig)) r idx s).2
        = ⟨List.range' idx (t - idx + 1), 1, false⟩ := by
  intro r
  induction r with
  | zero => intro idx s h1 h2 _; omega
  | succ r ih =>
    intro idx s h1 h2 hmod
    by_cases hit : idx = t
    · subst hit
      have h1eq : idx - idx + 1 = 1 := by omega
      simp [runFrom, hmod, h1eq, List.range'_succ]
    · have hlt : idx < t := lt_of_le_of_ne h1 hit
      simp only [runFrom, if_neg hit]
      rw [ih (idx + 1) (f idx s) (by omega) (by omega) hmod]
      have hk : t - idx + 1 = (t - (idx + 1) + 1) + 1 := by omega
      rw [hk, List.range'_succ]
      rfl

/-! ### Lemmas: output resolution -/

lemma resolvedOutputs_eq_foldl (vout : List RawOutput) :
    resolvedOutputs vout = vout.foldl prepare_vout_step [] :=
  syncLoop_getD_foldl prepare_vout_step dfltOut vout []

lemma findAddrIdx_none_iff (l : List ResolvedEntry) (a : String) :
    findAddrIdx l a = none ↔ a ∉ l.map ResolvedEntry.addresses := by
  induction l with
  | nil => simp [findAddrIdx]
  | cons e rest ih =>
    by_cases he : e.addresses = a
    · simp [findAddrIdx, he]
    · simp [findAddrIdx, he, ih, Ne.symm he]

lemma is_unique_true {l : List ResolvedEntry} {a : String}
    (h : a ∉ l.map ResolvedEntry.addresses) : is_unique l a = (true, none) := by
  unfold is_unique
  rw [(findAddrIdx_none_iff l a).mpr h]

lemma is_unique_cases (l : List ResolvedEntry) (a : String) :
    (is_unique l a = (true, none) ∧ a ∉ l.map ResolvedEntry.addresses)
      ∨ ∃ i, is_unique l a = (false, some i) := by
  unfold is_unique
  cases hf : findAddrIdx l a with
  | none => exact Or.inl ⟨rfl, (findAddrIdx_none_iff l a).mp hf⟩
  | some i => exact Or.inr ⟨i, rfl⟩

lemma updateAt_map_addresses : ∀ (l : List ResolvedEntry) (i : Nat) (amt : Int),
    (updateAt l i amt).map ResolvedEntry.addresses = l.map ResolvedEntry.addresses := by
  intro l
  induction l with
  | nil => intro i amt; rfl
  | cons e rest ih =>
    intro i amt
    cases i with
    | zero => rfl
    | succ i => simp [updateAt, ih]

lemma prepare_vout_step_emit_none {acc : List ResolvedEntry} {o : RawOutput}
    (h : emitOutput o = none) : prepare_vout_step acc o = acc := by
  cases hspk : o.scriptPubKey with
  | none => simp [prepare_vout_step, hspk]
  | some spk =>
    by_cases hbad : spk.typ = some "nonstandard" ∨ spk.typ = some "nulldata"
    · simp [prepare_vout_step, hspk, hbad]
    · cases haddr : resolveAddress spk with
      | none => simp [prepare_vout_step, hspk, hbad, haddr]
      | some a =>
        exfalso
        simp [emitOutput, hspk, hbad, haddr] at h

lemma prepare_vout_step_emit_some_new {acc : List ResolvedEntry} {o : RawOutput}
    {e : ResolvedEntry} (h : emitOutput o = some e)
    (hmem : e.addresses ∉ acc.map ResolvedEntry.addresses) :
    prepare_vout_step acc o = acc ++ [e] := by
  cases hspk : o.scriptPubKey with
  | none => simp [emitOutput, hspk] at h
  | some spk =>
    by_cases hbad : spk.typ = some "nonstandard" ∨ spk.typ = some "nulldata"
    · simp [emitOutput, hspk, hbad] at h
    · cases haddr : resolveAddress spk with
      | none => simp [emitOutput, hspk, hbad, haddr] at h
      | some a =>
        have he : e = ⟨a, convert_to_satoshi (JsValue.num (jsOrQ o.value))⟩ := by
          simp [emitOutput, hspk, hbad, haddr] at h
          exact h.symm
        subst he
        simp only [prepare_vout_step, hspk, haddr, if_neg hbad]
        rw [is_unique_true hmem]

lemma prepare_vout_step_nodup {acc : List ResolvedEntry} (o : RawOutput)
    (h : (acc.map ResolvedEntry.addresses).Nodup) :
    ((prepare_vout_step acc o).map ResolvedEntry.addresses).Nodup := by
  cases hspk : o.scriptPubKey with
  | none => simpa [prepare_vout_step, hspk] using h
  | some spk =>
    by_cases hbad : spk.typ = some "nonstandard" ∨ spk.typ = some "nulldata"
    · simpa [prepare_vout_step, hspk, hbad] using h
    · cases haddr : resolveAddress spk with
      | none => simpa [prepare_vout_step, hspk, hbad, haddr] using h
      | some a =>
        rcases is_unique_cases acc a with ⟨hu, hmem⟩ | ⟨i, hu⟩
        · simp only [prepare_vout_step, hspk, haddr, if_neg hbad, hu]
          rw [List.map_append]
          rw [List.nodup_append]
          refine ⟨h, by simp, ?_⟩
          intro x hx
          simp only [List.map_cons, List.map_nil, List.mem_singleton]
          intro hxa
          subst hxa
          exact hmem hx
        · simp only [prepare_vout_step, hspk, haddr, if_neg hbad, hu]
          rw [updateAt_map_addresses]
          exact h

lemma foldl_pres {σ α : Type} (P : σ → Prop) (g : σ → α → σ)
    (hg : ∀ s a, P s → P (g s a)) : ∀ (l : List α) (s : σ), P s → P (l.foldl g s) := by
  intro l
  induction l with
  | nil => intro s hs; exact hs
  | cons a l ih => intro s hs; exact ih (g s a) (hg s a hs)

lemma resolvedOutputs_nodup (vout : List RawOutput) :
    ((resolvedOutputs vout).map ResolvedEntry.addresses).Nodup := by
  rw [resolvedOutputs_eq_foldl]
  exact foldl_pres (fun l => (l.map ResolvedEntry.addresses).Nodup) prepare_vout_step
    (fun s a hs => prepare_vout_step_nodup a hs) vout [] (by simp)

lemma foldl_filterMap : ∀ (l : List RawOutput) (acc : List ResolvedEntry),
    ((acc.map ResolvedEntry.addresses)
      ++ ((l.filterMap emitOutput).map ResolvedEntry.addresses)).Nodup →
    l.foldl prepare_vout_step acc = acc ++ l.filterMap emitOutput := by
  intro l
  induction l with
  | nil => intro acc _; simp
  | cons o l ih =>
    intro acc h
    cases he : emitOutput o with
    | none =>
      rw [List.filterMap_cons_none he] at h
      rw [List.foldl_cons, prepare_vout_step_emit_none he,
        List.filterMap_cons_none he, ih acc h]
    | some e =>
      rw [List.filterMap_cons_some he] at h
      have hmem : e.addresses ∉ acc.map ResolvedEntry.addresses := by
        rw [List.nodup_append] at h
        intro hc
        exact h.2.2 hc (by simp)
      rw [List.foldl_cons, prepare_vout_step_emit_some_new he hmem,
        List.filterMap_cons_some he]
      rw [ih (acc ++ [e]) (by simpa [List.append_assoc] using h)]
      simp

lemma posCond_nil_vin (vout : List RawOutput) (x : List ResolvedEntry) :
    posCond vout [] x = false := by
  simp [posCond]

lemma posCond_nil_vout (vout : List RawOutput) (vin : List ResolvedEntry) :
    posCond vout vin [] = false := by
  simp [posCond]

lemma posCond_cons (vout : List RawOutput) (i0 : ResolvedEntry)
    (vis : List ResolvedEntry) (o0 : ResolvedEntry) (vos : List ResolvedEntry) :
    posCond vout (i0 :: vis) (o0 :: vos)
      = (headIsNonstandard vout && (i0.addresses == o0.addresses)) := by
  simp [posCond]

lemma prepare_vout_fst_nil_vin (vout : List RawOutput) :
    prepare_vout vout [] = (resolvedOutputs vout, []) := by
  unfold prepare_vout
  rw [posCond_nil_vin]
  rfl

/-! ### Lemmas: input resolution -/

lemma prepare_vin_eq_foldl (fetch : String → Option RawTx) (tx : RawTx) :
    prepare_vin fetch tx = tx.vin.foldl (prepare_vin_step fetch tx.vout) [] :=
  syncLoop_getD_foldl (prepare_vin_step fetch tx.vout) dfltIn tx.vin []

lemma get_input_addresses_coinbase (fetch : String → Option RawTx) (inp : RawInput)
    (vout : List RawOutput) (h : inp.coinbase = true) :
    get_input_addresses fetch (some inp) vout
      = [⟨"coinbase", some (vout.foldl (fun a o => a + jsOrQ o.value) 0)⟩] := by
  have hsum : (syncLoop ((vout.length : Int))
      (fun i a => (a + jsOrQ ((vout.getD i dfltOut).value), LoopSignal.nextSig)) (0 : ℚ)).1
      = vout.foldl (fun a o => a + jsOrQ o.value) 0 :=
    syncLoop_getD_foldl (fun a o => a + jsOrQ o.value) dfltOut vout 0
  simp only [get_input_addresses, h, if_true]
  rw [hsum]

lemma singleton_coinbase_shape {acc : List ResolvedEntry}
    (hacc : acc.map ResolvedEntry.addresses = ["coinbase"]) :
    ∃ e : ResolvedEntry, acc = [e] ∧ e.addresses = "coinbase" := by
  cases acc with
  | nil => simp at hacc
  | cons e rest =>
    simp only [List.map_cons, List.cons.injEq] at hacc
    obtain ⟨he, hrest⟩ := hacc
    have : rest = [] := by
      cases rest with
      | nil => rfl
      | cons x xs => simp at hrest
    subst this
    exact ⟨e, rfl, he⟩

lemma prepare_vin_step_coinbase (fetch : String → Option RawTx)
    (vout : List RawOutput) {acc : List ResolvedEntry} {inp : RawInput}
    (hin : inp.coinbase = true)
    (hacc : acc.map ResolvedEntry.addresses = ["coinbase"]) :
    (prepare_vin_step fetch vout acc inp).map ResolvedEntry.addresses = ["coinbase"] := by
  obtain ⟨e, rfl, he⟩ := singleton_coinbase_shape hacc
  simp only [prepare_vin_step, get_input_addresses_coinbase fetch inp vout hin]
  have hu : is_unique [e] "coinbase" = (false, some 0) := by
    simp [is_unique, findAddrIdx, he]
  rw [hu]
  simp [updateAt, he]

lemma vinfold_coinbase (fetch : String → Option RawTx) (vout : List RawOutput) :
    ∀ (inputs : List RawInput) (acc : List ResolvedEntry),
      (∀ i ∈ inputs, i.coinbase = true) →
      acc.map ResolvedEntry.addresses = ["coinbase"] →
      ((inputs.foldl (prepare_vin_step fetch vout) acc).map ResolvedEntry.addresses)
        = ["coinbase"] := by
  intro inputs
  induction inputs with
  | nil => intro acc _ hacc; exact hacc
  | cons inp rest ih =>
    intro acc hall hacc
    rw [List.foldl_cons]
    exact ih _ (fun i hi => hall i (List.mem_cons_of_mem inp hi))
      (prepare_vin_step_coinbase fetch vout (hall inp (List.mem_cons_self inp rest)) hacc)

/-! ### Lemmas: the heap model -/

lemma heapRead_append_self (h : List (List ResolvedEntry)) (x : List ResolvedEntry) :
    heapRead (h ++ [x]) h.length = x := by
  rw [heapRead, List.getD_eq_getElem?_getD, List.getElem?_append_right (le_refl _)]
  simp

lemma heapRead_append_lt {h : List (List ResolvedEntry)} {x : List ResolvedEntry}
    {r : Nat} (hr : r < h.length) : heapRead (h ++ [x]) r = heapRead h r := by
  rw [heapRead, heapRead, List.getD_eq_getElem?_getD, List.getD_eq_getElem?_getD,
    List.getElem?_append_left hr]

lemma heapRead_set_ne {h : List (List ResolvedEntry)} {i r : Nat}
    {y : List ResolvedEntry} (hne : i ≠ r) : heapRead (h.set i y) r = heapRead h r := by
  rw [heapRead, heapRead, List.getD_eq_getElem?_getD, List.getD_eq_getElem?_getD,
    List.getElem?_set_ne hne]

lemma heapRead_set_self {h : List (List ResolvedEntry)} {i : Nat}
    {y : List ResolvedEntry} (hi : i < h.length) : heapRead (h.set i y) i = y := by
  rw [heapRead, List.getD_eq_getElem?_getD, List.getElem?_set_self hi]
  rfl

/-! ### Claim theorems -/

/-- C5: with a callback that advances the loop once per invocation, `syncLoop`
over `n ≥ 1` iterations invokes the callback exactly at indices `0..n-1` in
invocation order (the trace equals `List.range`), then runs the completion
callback exactly once; a callback that calls `break(false)` at iteration
`k < n` stops the loop after the calls `0..k` with the completion callback
never invoked; and `n ≤ 0` runs the completion callback immediately with zero
iterations. -/
theorem syncLoop_iteration_contract :
    (∀ (n : Int) {σ : Type} (f : Nat → σ → σ) (s : σ), 1 ≤ n →
        (syncLoop n (fun i st => (f i st, LoopSignal.nextSig)) s).2
          = ⟨List.range n.toNat, 1, false⟩)
    ∧ (∀ (n : Int) {σ : Type} (f : Nat → σ → σ) (s : σ) (k : Nat) (nb : Bool),
        k < n.toNat →
        (syncLoop n (fun i st => (f i st,
            if i = k then LoopSignal.breakSig false nb else LoopSignal.nextSig)) s).2
          = ⟨List.range (k + 1), 0, false⟩)
    ∧ (∀ (n : Int) {σ : Type} (step : Nat → σ → σ × LoopSignal) (s : σ), n ≤ 0 →
        syncLoop n step s = (s, ⟨[], 1, false⟩)) := by
  refine ⟨?_, ?_, ?_⟩
  · intro n σ f s h
    rw [syncLoop_nextAll f n s h]
  · intro n σ f s k nb hk
    have hn : ¬n ≤ 0 := by omega
    rw [syncLoop, if_neg hn,
      runFrom_breakAt f k nb n.toNat 0 s (Nat.zero_le k) (by omega)]
    rw [List.range_eq_range']
    simp
  · intro n σ step s h
    rw [syncLoop, if_pos h]

/-- Witness for C5 at `n = 3` (full run), `n = 3, k = 1` (break), `n = 0`. -/
theorem syncLoop_iteration_contract_witness :
    (syncLoop 3 (fun _ (st : Unit) => (st, LoopSignal.nextSig)) ()).2
        = ⟨List.range 3, 1, false⟩
    ∧ (syncLoop 3 (fun i (st : Unit) => (st,
          if i = 1 then LoopSignal.breakSig false false else LoopSignal.nextSig)) ()).2
        = ⟨List.range 2, 0, false⟩
    ∧ syncLoop 0 (fun _ (st : Unit) => (st, LoopSignal.nextSig)) ()
        = ((), ⟨[], 1, false⟩) :=
  ⟨syncLoop_iteration_contract.1 3 (fun _ st => st) () (by norm_num),
   syncLoop_iteration_contract.2.1 3 (fun _ st => st) () 1 false (by norm_num),
   syncLoop_iteration_contract.2.2 0 (fun _ st => (st, LoopSignal.nextSig)) ()
     (le_refl 0)⟩

/-- C8 (amended): when the per-iteration callback throws at an index `t` that
is not a multiple of 100, the driver's `try`/`catch` catches it, the run ends
there (calls `0..t`), and the completion callback is invoked exactly once with
nothing propagated.  (At indices divisible by 100 the callback runs on a
deferred scheduler tick outside the `try`/`catch`; see the counterexample.) -/
theorem syncLoop_throw_terminates_run :
    ∀ (n : Int) {σ : Type} (f : Nat → σ → σ) (s : σ) (t : Nat),
      t < n.toNat → t % 100 ≠ 0 →
      (syncLoop n (fun i st => (f i st,
          if i = t then LoopSignal.throwSig else LoopSignal.nextSig)) s).2
        = ⟨List.range (t + 1), 1, false⟩ := by
  intro n σ f s t ht hmod
  have hn : ¬n ≤ 0 := by omega
  rw [syncLoop, if_neg hn,
    runFrom_throwAt f t n.toNat 0 s (Nat.zero_le t) (by omega) hmod]
  rw [List.range_eq_range']
  simp

/-- Witness for the amended C8 at `n = 2`, throw at `t = 1`. -/
theorem syncLoop_throw_terminates_run_witness :
    (syncLoop 2 (fun i (st : Unit) => (st,
        if i = 1 then LoopSignal.throwSig else LoopSignal.nextSig)) ()).2
      = ⟨List.range 2, 1, false⟩ :=
  syncLoop_throw_terminates_run 2 (fun _ st => st) () 1 (by norm_num) (by norm_num)

/-- Counterexample to C8 as stated: at `n = 1` a callback that throws at
iteration 0 (an index divisible by 100, hence invoked through `setTimeout`
outside the `try`/`catch`) leaves the completion callback never invoked
(`exits = 0`) and the exception escaping to the scheduler
(`uncaught = true`), contradicting the claim that the completion callback is
invoked exactly once and the failure is not propagated. -/
theorem syncLoop_throw_at_scheduled_index_cex :
    (syncLoop 1 (fun i (st : Unit) => (st,
        if i = 0 then LoopSignal.throwSig else LoopSignal.nextSig)) ()).2
      = ⟨[0], 0, true⟩ := by
  decide

lemma prepare_vout_fst_map (vout : List RawOutput) (vin : List ResolvedEntry) :
    ((prepare_vout vout vin).1.map ResolvedEntry.addresses)
      = ((resolvedOutputs vout).map ResolvedEntry.addresses) := by
  unfold prepare_vout
  by_cases hc : posCond vout vin (resolvedOutputs vout) = true
  · rw [if_pos hc]
    rcases vin with _ | ⟨i0, vis⟩ <;>
      rcases ho : resolvedOutputs vout with _ | ⟨o0, vos⟩ <;> simp [ho]
  · rw [if_neg hc]

/-- C2: the resolved output set of `prepare_vout` never carries the same
address twice, for any outputs list and input hint; and two outputs paying
`1` and `2` coins to the same address `A` resolve to the single accumulated
entry `{addresses: "A", amount: 300000000}` (insertion keeps first-seen
order; the accumulation lands on the existing entry). -/
theorem prepare_vout_dedup_accumulates :
    (∀ (vout : List RawOutput) (vin : List ResolvedEntry),
        ((prepare_vout vout vin).1.map ResolvedEntry.addresses).Nodup)
    ∧ prepare_vout
        [⟨some 1, some 0, some ⟨some "pubkeyhash", some ["A"], none⟩⟩,
         ⟨some 2, some 1, some ⟨some "pubkeyhash", some ["A"], none⟩⟩] []
      = ([⟨"A", 300000000⟩], []) := by
  constructor
  · intro vout vin
    rw [prepare_vout_fst_map]
    exact resolvedOutputs_nodup vout
  · with_unfolding_all rfl

/-- Counterexample to C3 as stated: an output of type `nonstandard` that
carries the usable address `"A"` — by the claim's skip rule it should resolve
to an entry — is skipped entirely by `prepare_vout` (lines 309-313 skip every
`nonstandard`/`nulldata` output regardless of its addresses). -/
theorem prepare_vout_nonstandard_with_address_skipped_cex :
    resolveAddress ⟨some "nonstandard", some ["A"], none⟩ = some "A"
    ∧ (prepare_vout [⟨some 1, some 0, some ⟨some "nonstandard", some ["A"], none⟩⟩] []).1
        = [] :=
  ⟨rfl, by with_unfolding_all rfl⟩

/-- C3 (amended): an output is skipped exactly when its type is
`nonstandard`/`nulldata` (regardless of any address), or when it has neither
a non-empty `scriptPubKey.addresses` array nor a truthy `scriptPubKey.address`
(this rule is `emitOutput`); every other output produces the entry whose
address is `addresses[0]`, else `address`, and whose amount is the converted
value — so on outputs with pairwise-distinct resolved addresses the resolver
returns exactly the emitted entries in order. -/
theorem prepare_vout_skip_characterization :
    ∀ (vout : List RawOutput),
      ((vout.filterMap emitOutput).map ResolvedEntry.addresses).Nodup →
      (prepare_vout vout []).1 = vout.filterMap emitOutput := by
  intro vout h
  rw [prepare_vout_fst_nil_vin]
  rw [resolvedOutputs_eq_foldl]
  have hf := foldl_filterMap vout [] (by simpa using h)
  simpa using hf

/-- Witness for the amended C3 on `mixedVout`: the `nulldata` and no-address
outputs are skipped, the `A` and `B` outputs come through in order. -/
theorem prepare_vout_skip_characterization_witness :
    (prepare_vout mixedVout []).1 = mixedVout.filterMap emitOutput := by
  refine prepare_vout_skip_characterization mixedVout ?_
  have hm : (mixedVout.filterMap emitOutput).map ResolvedEntry.addresses = ["A", "B"] := by
    with_unfolding_all rfl
  rw [hm]
  decide

/-- C4: after the output loop, the proof-of-stake adjustment applies exactly
once and exactly when the raw first output is `nonstandard`, both resolved
sets are non-empty, and the first resolved input's address equals the first
resolved output's address — in which case the first input's amount is
subtracted from the first output's amount and the first input entry is
removed; in every other situation the resolved sets pass through unchanged.
On the concrete proof-of-stake fixture (input `{A, 500000000}`, resolved
output `{A, 600000000}` behind a `nonstandard` head) the output becomes
`{A, 100000000}` and the input list loses its `A` entry. -/
theorem prepare_vout_pos_adjustment :
    (∀ (vout : List RawOutput) (i0 : ResolvedEntry) (vis : List ResolvedEntry)
        (b0 : ResolvedEntry) (bs : List ResolvedEntry),
        resolvedOutputs vout = b0 :: bs →
        ((headIsNonstandard vout = true ∧ i0.addresses = b0.addresses →
            prepare_vout vout (i0 :: vis)
              = ({ b0 with amount := b0.amount - i0.amount } :: bs, vis))
         ∧ (¬(headIsNonstandard vout = true ∧ i0.addresses = b0.addresses) →
            prepare_vout vout (i0 :: vis) = (b0 :: bs, i0 :: vis))))
    ∧ (∀ (vout : List RawOutput) (vin : List ResolvedEntry),
        resolvedOutputs vout = [] → prepare_vout vout vin = ([], vin))
    ∧ (∀ (vout : List RawOutput), prepare_vout vout [] = (resolvedOutputs vout, []))
    ∧ prepare_vout posVout [⟨"A", 500000000⟩] = ([⟨"A", 100000000⟩], []) := by
  refine ⟨?_, ?_, ?_, ?_⟩
  · intro vout i0 vis b0 bs hb
    constructor
    · rintro ⟨hns, haddr⟩
      unfold prepare_vout
      have hc : posCond vout (i0 :: vis) (resolvedOutputs vout) = true := by
        rw [hb, posCond_cons, hns, haddr]
        simp
      rw [if_pos hc, hb]
    · intro hnot
      unfold prepare_vout
      have hc : posCond vout (i0 :: vis) (resolvedOutputs vout) = false := by
        rw [hb, posCond_cons]
        by_cases hh : headIsNonstandard vout = true
        · have ha : i0.addresses ≠ b0.addresses := fun hc' => hnot ⟨hh, hc'⟩
          rw [hh]
          simp [ha]
        · have hh' : headIsNonstandard vout = false := by
            revert hh
            cases headIsNonstandard vout <;> simp
          rw [hh']
          simp
      rw [if_neg (by simp [hc]), hb]
  · intro vout vin hb
    unfold prepare_vout
    rw [hb, posCond_nil_vout]
    rfl
  · exact prepare_vout_fst_nil_vin
  · with_unfolding_all rfl

/-- Witness for C4 on the proof-of-stake fixture, through the general
characterization. -/
theorem prepare_vout_pos_adjustment_witness :
    prepare_vout posVout [⟨"A", 500000000⟩] = ([⟨"A", 100000000⟩], []) :=
  (prepare_vout_pos_adjustment.1 posVout ⟨"A", 500000000⟩ [] ⟨"A", 600000000⟩ []
      (by with_unfolding_all rfl)).1 ⟨rfl, rfl⟩

lemma vinfold_coinbase_amount (fetch : String → Option RawTx) (vout : List RawOutput) :
    ∀ (inputs : List RawInput) (m : Nat),
      (∀ i ∈ inputs, i.coinbase = true) →
      inputs.foldl (prepare_vin_step fetch vout)
          [⟨"coinbase", (m : Int) * convert_to_satoshi
              (JsValue.num (vout.foldl (fun a o => a + jsOrQ o.value) 0))⟩]
        = [⟨"coinbase", ((m + inputs.length : Nat) : Int) * convert_to_satoshi
              (JsValue.num (vout.foldl (fun a o => a + jsOrQ o.value) 0))⟩] := by
  intro inputs
  induction inputs with
  | nil => intro m _; simp
  | cons inp rest ih =>
    intro m hall
    rw [List.foldl_cons]
    have hstep : prepare_vin_step fetch vout
        [⟨"coinbase", (m : Int) * convert_to_satoshi
            (JsValue.num (vout.foldl (fun a o => a + jsOrQ o.value) 0))⟩] inp
        = [⟨"coinbase", (((m + 1 : Nat)) : Int) * convert_to_satoshi
            (JsValue.num (vout.foldl (fun a o => a + jsOrQ o.value) 0))⟩] := by
      simp only [prepare_vin_step,
        get_input_addresses_coinbase fetch inp vout
          (hall inp (List.mem_cons_self inp rest))]
      have hu : is_unique [⟨"coinbase", (m : Int) * convert_to_satoshi
          (JsValue.num (vout.foldl (fun a o => a + jsOrQ o.value) 0))⟩] "coinbase"
          = (false, some 0) := by
        simp [is_unique, findAddrIdx]
      rw [hu]
      simp only [updateAt, jsOrQ, Option.getD_some]
      simp only [List.cons.injEq, and_true, ResolvedEntry.mk.injEq, true_and]
      push_cast
      ring
    rw [hstep, ih (m + 1) (fun i hi => hall i (List.mem_cons_of_mem inp hi))]
    have harith : m + 1 + rest.length = m + (inp :: rest).length := by
      rw [List.length_cons]
      omega
    rw [harith]

lemma prepare_vin_all_coinbase (fetch : String → Option RawTx) (vout : List RawOutput)
    (inputs : List RawInput) (hne : inputs ≠ [])
    (hall : ∀ i ∈ inputs, i.coinbase = true) :
    prepare_vin fetch ⟨inputs, vout⟩
      = [⟨"coinbase", (inputs.length : Int) * convert_to_satoshi
          (JsValue.num (vout.foldl (fun a o => a + jsOrQ o.value) 0))⟩] := by
  rw [prepare_vin_eq_foldl]
  show inputs.foldl (prepare_vin_step fetch vout) [] = _
  rcases inputs with _ | ⟨inp, rest⟩
  · exact absurd rfl hne
  · rw [List.foldl_cons]
    have hstep : prepare_vin_step fetch vout [] inp
        = [⟨"coinbase", ((1 : Nat) : Int) * convert_to_satoshi
            (JsValue.num (vout.foldl (fun a o => a + jsOrQ o.value) 0))⟩] := by
      simp only [prepare_vin_step,
        get_input_addresses_coinbase fetch inp vout
          (hall inp (List.mem_cons_self inp rest))]
      have hu : is_unique ([] : List ResolvedEntry) "coinbase" = (true, none) := rfl
      rw [hu]
      simp [jsOrQ]
    rw [hstep, vinfold_coinbase_amount fetch vout rest 1
      (fun i hi => hall i (List.mem_cons_of_mem inp hi))]
    have harith : (1 : Nat) + rest.length = (inp :: rest).length := by
      rw [List.length_cons]
      omega
    rw [harith]

/-- Counterexample to C6 as stated: a transaction with two coinbase inputs
and outputs summing to `5.0` resolves to the single entry
`{addresses: "coinbase", amount: 1000000000}` — twice the converted output
sum of `500000000` — because `get_input_addresses` synthesizes the full
output sum for every coinbase input (lines 368-377, with no cross-input
short-circuit in `prepare_vin`) and the dedup branch accumulates it again
(lines 426-435).  This contradicts the claim that the synthesized amount is
the sum of all output values regardless of input count. -/
theorem prepare_vin_double_coinbase_cex :
    outs5.foldl (fun a o => a + jsOrQ o.value) 0 = 5
    ∧ convert_to_satoshi (JsValue.num 5) = 500000000
    ∧ prepare_vin (fun _ => none) ⟨[⟨none, none, true⟩, ⟨none, none, true⟩], outs5⟩
        = [⟨"coinbase", 1000000000⟩] :=
  ⟨by with_unfolding_all rfl, by with_unfolding_all rfl, by with_unfolding_all rfl⟩

/-- C6 (amended): every coinbase input synthesizes the entry
`{hash: "coinbase", amount: Σ values of the transaction's own outputs}`
without consulting the data source, and there is no cross-input
short-circuit: a transaction whose only input is coinbase resolves to
exactly `[{addresses: "coinbase", amount: converted output sum}]` (outputs
summing to `5.0` give `500000000`), while a transaction with `k` coinbase
inputs still resolves to exactly one synthetic `"coinbase"` entry, whose
amount however accumulates to `k` times the converted output sum. -/
theorem prepare_vin_coinbase_synthesis :
    (∀ (fetch : String → Option RawTx) (inp : RawInput) (vout : List RawOutput),
        inp.coinbase = true →
        get_input_addresses fetch (some inp) vout
          = [⟨"coinbase", some (vout.foldl (fun a o => a + jsOrQ o.value) 0)⟩])
    ∧ (∀ (fetch : String → Option RawTx) (vout : List RawOutput),
        prepare_vin fetch ⟨[⟨none, none, true⟩], vout⟩
          = [⟨"coinbase", convert_to_satoshi
              (JsValue.num (vout.foldl (fun a o => a + jsOrQ o.value) 0))⟩])
    ∧ (∀ fetch : String → Option RawTx,
        prepare_vin fetch ⟨[⟨none, none, true⟩], outs5⟩ = [⟨"coinbase", 500000000⟩])
    ∧ (∀ (fetch : String → Option RawTx) (vout : List RawOutput)
        (inputs : List RawInput), inputs ≠ [] →
        (∀ i ∈ inputs, i.coinbase = true) →
        prepare_vin fetch ⟨inputs, vout⟩
          = [⟨"coinbase", (inputs.length : Int) * convert_to_satoshi
              (JsValue.num (vout.foldl (fun a o => a + jsOrQ o.value) 0))⟩]) := by
  refine ⟨?_, ?_, ?_, ?_⟩
  · intro fetch inp vout h
    exact get_input_addresses_coinbase fetch inp vout h
  · intro fetch vout
    have h := prepare_vin_all_coinbase fetch vout [⟨none, none, true⟩]
      (by decide) (by decide)
    simpa using h
  · intro fetch
    with_unfolding_all rfl
  · intro fetch vout inputs hne hall
    exact prepare_vin_all_coinbase fetch vout inputs hne hall

/-- Witness for the amended C6: the per-input synthesis on `outs5`, and the
two-coinbase-input transaction resolving to one entry carrying twice the
converted output sum. -/
theorem prepare_vin_coinbase_synthesis_witness :
    get_input_addresses (fun _ => none) (some ⟨none, none, true⟩) outs5
        = [⟨"coinbase", some (outs5.foldl (fun a o => a + jsOrQ o.value) 0)⟩]
    ∧ prepare_vin (fun _ => none) ⟨[⟨none, none, true⟩, ⟨none, none, true⟩], outs5⟩
        = [⟨"coinbase", (2 : Int) * convert_to_satoshi
            (JsValue.num (outs5.foldl (fun a o => a + jsOrQ o.value) 0))⟩] :=
  ⟨prepare_vin_coinbase_synthesis.1 (fun _ => none) ⟨none, none, true⟩ outs5 rfl,
   prepare_vin_coinbase_synthesis.2.2.2 (fun _ => none) outs5
     [⟨none, none, true⟩, ⟨none, none, true⟩] (by decide) (by decide)⟩

/-- C7: under every configured strategy and both transports, `get_supply`
resolves a failing or non-numeric source to `0` instead of propagating it
(the function is total, so the explorer always receives a number): a failed
or unparsable `HEAVY`/`GETINFO`/`TXOUTSET` query yields `0`, and a failing
balance store yields `0` on the `BALANCES` and default (coinbase) routes. -/
theorem get_supply_failure_resolves_zero :
    ∀ (b : Bool) (ds : DataSource),
      (sourceBad ds.getsupply → get_supply ⟨some "HEAVY", b⟩ ds = 0)
      ∧ (sourceBad ds.getinfo_moneysupply → get_supply ⟨some "GETINFO", b⟩ ds = 0)
      ∧ (sourceBad ds.txoutset_total_amount → get_supply ⟨some "TXOUTSET", b⟩ ds = 0)
      ∧ (ds.balanceDocs = none → get_supply ⟨some "BALANCES", b⟩ ds = 0)
      ∧ (ds.coinbaseDoc = none → get_supply ⟨none, b⟩ ds = 0) := by
  intro b ds
  have herr : parseDecParts "RPC command failed" = none := by decide
  refine ⟨?_, ?_, ?_, ?_, ?_⟩
  · intro h
    cases hg : ds.getsupply with
    | fail =>
      cases b <;> simp [get_supply, hg, handleSupply, jsParseFloat, herr]
    | value v =>
      rw [hg] at h
      simp only [sourceBad] at h
      cases b <;> simp [get_supply, hg, handleSupply, h]
  · intro h
    cases hg : ds.getinfo_moneysupply with
    | fail =>
      cases b <;> simp [get_supply, hg, handleSupply, jsParseFloat]
    | value v =>
      rw [hg] at h
      simp only [sourceBad] at h
      cases b <;> simp [get_supply, hg, handleSupply, h]
  · intro h
    cases hg : ds.txoutset_total_amount with
    | fail =>
      cases b <;> simp [get_supply, hg, handleSupply, jsParseFloat]
    | value v =>
      rw [hg] at h
      simp only [sourceBad] at h
      cases b <;> simp [get_supply, hg, handleSupply, h]
  · intro h
    cases b <;> simp [get_supply, balance_supply, h, handleSupply, jsParseFloat]
  · intro h
    cases b <;> simp [get_supply, coinbase_supply, h, handleSupply, jsParseFloat]

/-- Witness for C7 on an all-failing data source. -/
theorem get_supply_failure_resolves_zero_witness :
    get_supply ⟨some "TXOUTSET", true⟩ ⟨.fail, .fail, .fail, none, none⟩ = 0
    ∧ get_supply ⟨some "HEAVY", false⟩ ⟨.fail, .fail, .fail, none, none⟩ = 0
    ∧ get_supply ⟨none, false⟩ ⟨.fail, .fail, .fail, none, none⟩ = 0 :=
  ⟨(get_supply_failure_resolves_zero true ⟨.fail, .fail, .fail, none, none⟩).2.2.1
      trivial,
   (get_supply_failure_resolves_zero false ⟨.fail, .fail, .fail, none, none⟩).1
      trivial,
   (get_supply_failure_resolves_zero false ⟨.fail, .fail, .fail, none, none⟩).2.2.2.2
      rfl⟩

/-- Counterexample to C9 as stated: on the proof-of-stake fixture the
adjustment fires (the returned output set is the adjusted
`[{A, 100000000}]`), yet after the call the caller's array still holds
`[{A, 500000000}]` — `prepare_vout` copies `vin` with `slice()` (line 303)
and `shift()`s only the copy, so the caller-supplied array is not mutated. -/
theorem prepare_vout_caller_array_not_mutated_cex :
    (prepare_vout_heap posVout 0 [[⟨"A", 500000000⟩]]).1.1 = [⟨"A", 100000000⟩]
    ∧ heapRead (prepare_vout_heap posVout 0 [[⟨"A", 500000000⟩]]).2 0
        = [⟨"A", 500000000⟩] :=
  ⟨by with_unfolding_all rfl, by with_unfolding_all rfl⟩

/-- C9 (amended): `prepare_vout` operates on a `slice()` copy of the caller's
`vin` array: after the call the caller's array is unchanged, the returned
input set lives in a freshly allocated array (a different reference), and
that returned copy — not the caller's array — reflects the proof-of-stake
removal, agreeing with the pure `prepare_vout` on the caller's contents. -/
theorem prepare_vout_copies_caller_vin :
    ∀ (vout : List RawOutput) (r : Nat) (h : List (List ResolvedEntry)),
      r < h.length →
      heapRead (prepare_vout_heap vout r h).2 r = heapRead h r
      ∧ (prepare_vout_heap vout r h).1.2 ≠ r
      ∧ heapRead (prepare_vout_heap vout r h).2 (prepare_vout_heap vout r h).1.2
          = (prepare_vout vout (heapRead h r)).2
      ∧ (prepare_vout_heap vout r h).1.1 = (prepare_vout vout (heapRead h r)).1 := by
  intro vout r h hr
  have hread : heapRead (h ++ [heapRead h r]) h.length = heapRead h r :=
    heapRead_append_self h (heapRead h r)
  have hlenlt : h.length < (h ++ [heapRead h r]).length := by
    simp
  have hne : h.length ≠ r := by omega
  unfold prepare_vout_heap jsSliceAlloc prepare_vout
  simp only [hread]
  by_cases hc : posCond vout (heapRead h r) (resolvedOutputs vout) = true
  · simp only [hc, if_true]
    rcases hV : heapRead h r with _ | ⟨i0, vis⟩
    · rw [hV] at hc
      rw [posCond_nil_vin] at hc
      exact absurd hc (by simp)
    · rcases ho : resolvedOutputs vout with _ | ⟨o0, vos⟩
      · rw [ho] at hc
        rw [posCond_nil_vout] at hc
        exact absurd hc (by simp)
      · rw [hV, ho] at hc
        rw [hV] at hread hlenlt
        simp only [hV, ho, hc, if_true, hread]
        refine ⟨?_, hne, ?_, trivial⟩
        · simp only [jsShift, hread, List.tail_cons]
          rw [heapRead_set_ne hne, heapRead_append_lt hr, hV]
        · simp only [jsShift, hread, List.tail_cons]
          rw [heapRead_set_self hlenlt]
  · have hc' : posCond vout (heapRead h r) (resolvedOutputs vout) = false := by
      revert hc
      cases posCond vout (heapRead h r) (resolvedOutputs vout) <;> simp
    simp only [hc', Bool.false_eq_true, if_false]
    exact ⟨heapRead_append_lt hr, hne, hread, trivial⟩

/-- Witness for the amended C9 on the proof-of-stake fixture. -/
theorem prepare_vout_copies_caller_vin_witness :
    heapRead (prepare_vout_heap posVout 0 [[⟨"A", 500000000⟩]]).2 0
        = heapRead [[⟨"A", 500000000⟩]] 0
    ∧ (prepare_vout_heap posVout 0 [[⟨"A", 500000000⟩]]).1.2 ≠ 0
    ∧ heapRead (prepare_vout_heap posVout 0 [[⟨"A", 500000000⟩]]).2
          (prepare_vout_heap posVout 0 [[⟨"A", 500000000⟩]]).1.2
        = (prepare_vout posVout (heapRead [[⟨"A", 500000000⟩]] 0)).2
    ∧ (prepare_vout_heap posVout 0 [[⟨"A", 500000000⟩]]).1.1
        = (prepare_vout posVout (heapRead [[⟨"A", 500000000⟩]] 0)).1 :=
  prepare_vout_copies_caller_vin posVout 0 [[⟨"A", 500000000⟩]] (by norm_num)
